import Mathlib

/-
Verification of the response-extraction and fallback-classification logic of
the repository: sentiment_analysis.py, summarized_text_ai.py, text_classifier.py.

Text is modelled as `List Char` (`Str`).  Python string operations are
re-implemented structurally (or with an explicit fuel equal to the input
length, which is always sufficient because every step consumes at least one
character), so that all definitions compute by kernel reduction.
Case folding models Python `str.lower()` on the ASCII range (all markers and
keywords in the source are ASCII).  The HTTP transport is modelled as an
upstream outcome value, following the source's try/except structure.
-/

/-- Text is modelled as a list of characters. -/
abbrev Str := List Char

/-- Conversion from Lean string literals to the `Str` model. -/
def str (s : String) : Str := s.data

/-- Whitespace set of Python `str.strip()` / regex `\s` (ASCII range). -/
def isSpace (c : Char) : Bool :=
  c = ' ' || c = '\t' || c = '\n' || c = '\r' || c = '\x0b' || c = '\x0c'

/-- Python `str.lower()` (ASCII case folding). -/
def lower (s : Str) : Str := s.map Char.toLower

/-- Python `needle in haystack`: substring test. -/
def containsSub : Str → Str → Bool
  | [], pat => pat.isEmpty
  | c :: rest, pat => pat.isPrefixOf (c :: rest) || containsSub rest pat

/-- The text after the first occurrence of `pat`, if `pat` occurs
(the tail that Python `s.split(pat)[1:]` rejoined with `pat` would give). -/
def afterFirst (pat : Str) : Str → Option Str
  | [] => none
  | c :: rest =>
    if pat.isPrefixOf (c :: rest) then some (List.drop pat.length (c :: rest))
    else afterFirst pat rest

/-- The text before the first occurrence of `pat` (all of it if `pat` is absent);
this is Python `s.split(pat)[0]`. -/
def beforeFirst (pat : Str) : Str → Str
  | [] => []
  | c :: rest =>
    if pat.isPrefixOf (c :: rest) then [] else c :: beforeFirst pat rest

/-- Python `s.rfind(' ')`: index of the last space, if any. -/
def lastSpaceIdx : Str → Option Nat
  | [] => none
  | c :: rest =>
    match lastSpaceIdx rest with
    | some i => some (i + 1)
    | none => if c = ' ' then some 0 else none

/-- Drop the longest all-`p` suffix (right-hand half of Python `strip`). -/
def dropTrail (p : Char → Bool) : Str → Str
  | [] => []
  | c :: rest =>
    match dropTrail p rest with
    | [] => if p c then [] else [c]
    | d :: ds => c :: d :: ds

/-- Python `str.strip()`: remove whitespace from both ends. -/
def trim (s : Str) : Str := List.dropWhile isSpace (dropTrail isSpace s)

/-- Terminal punctuation set of the source: `['.', '!', '?']`. -/
def isPunct (c : Char) : Bool := c = '.' || c = '!' || c = '?'

/-- The source's closing step: `if rationale and not rationale[-1] in
['.', '!', '?']: rationale += "."`. -/
def normalizePunct (r : Str) : Str :=
  match r.getLast? with
  | none => r
  | some c => if isPunct c then r else r ++ ['.']

/-- Python `s.replace(pat, "")` with non-empty `pat`: fuel-driven left-to-right
scan removing non-overlapping occurrences.  Fuel `s.length` always suffices. -/
def removeAllF (pat : Str) : Nat → Str → Str
  | _, [] => []
  | 0, s => s
  | fuel + 1, c :: rest =>
    if pat.isPrefixOf (c :: rest) && !pat.isEmpty then
      removeAllF pat fuel (List.drop (pat.length - 1) rest)
    else c :: removeAllF pat fuel rest

/-- Python `s.replace(pat, "")`. -/
def removeAll (pat s : Str) : Str := removeAllF pat s.length s

/-- Result record of `sentiment_analysis` (the parse path never sets `error`). -/
structure SentimentResult where
  sentiment : Str
  rationale : Str
deriving DecidableEq

/-- Marker `"sentiment: positive"`. -/
def sentPosPat : Str := str "sentiment: positive"

/-- Marker `"sentiment: negative"`. -/
def sentNegPat : Str := str "sentiment: negative"

/-- Marker `"sentiment: neutral"`. -/
def sentNeuPat : Str := str "sentiment: neutral"

/-- Marker `"rationale:"`. -/
def rMark : Str := str "rationale:"

/-- The literal `"positive"`. -/
def strPositive : Str := str "positive"

/-- The literal `"negative"`. -/
def strNegative : Str := str "negative"

/-- The literal `"neutral"`. -/
def strNeutral : Str := str "neutral"

/-- A single period, the separator of `split(".")`. -/
def dotS : Str := ['.']

/-- The sequential `replace(term, "")` loop of the no-marker branch. -/
def removeTerms (s : Str) : Str :=
  removeAll (str "sentiment:")
    (removeAll (str "neutral") (removeAll (str "negative") (removeAll (str "positive") s)))

/-- The sentiment detection if/elif chain of `sentiment_analysis`. -/
def sentimentOf (low : Str) : Str :=
  if containsSub low sentPosPat then strPositive
  else if containsSub low sentNegPat then strNegative
  else if containsSub low sentNeuPat then strNeutral
  else strNeutral

/-- The `rationale_part.strip()` of the marker branch: `tail` is the text
after the first `"rationale:"`, and `beforeFirst rMark` cuts it at the next
occurrence, exactly as `split("rationale:")[1]` does. -/
def rationalePart (tail : Str) : Str := trim (beforeFirst rMark tail)

/-- The first-sentence extraction of the marker branch, before truncation:
`rationale_part.split(".")[0].strip() + "."` when a period is present, else
`rationale_part.strip()`. -/
def rationaleSentence (tail : Str) : Str :=
  let rp := rationalePart tail
  if containsSub rp dotS then trim (beforeFirst dotS rp) ++ dotS else trim rp

/-- The over-100-characters truncation step: cut at the last space strictly
before character 100 (`rfind` result must be positive), or leave unchanged. -/
def truncateAtSpace (r0 : Str) : Str :=
  if 100 < r0.length then
    match lastSpaceIdx (r0.take 100) with
    | some k => if 0 < k then trim (r0.take k) else r0
    | none => r0
  else r0

/-- The `"rationale:"`-marker branch of the rationale extraction. -/
def rationaleMarker (tail : Str) : Str :=
  normalizePunct (truncateAtSpace (rationaleSentence tail))

/-- The no-marker branch: remove the sentiment terms, take the first
period-separated segment, strip, and normalize punctuation. -/
def rationaleNoMarker (low : Str) : Str :=
  normalizePunct (trim (beforeFirst dotS (removeTerms low)))

/-- The rationale extraction of `sentiment_analysis`: the `match` on
`afterFirst` models `if "rationale:" in full_response.lower()` together with
`split("rationale:")[1]`. -/
def rationaleOf (low : Str) : Str :=
  match afterFirst rMark low with
  | some tail => rationaleMarker tail
  | none => rationaleNoMarker low

/-- Embedding of `sentiment_analysis` from src/sentiment_analysis.py
(the parsing of `full_response` into the result record). -/
def sentiment_analysis (raw : Str) : SentimentResult :=
  ⟨sentimentOf (lower raw), rationaleOf (lower raw)⟩

example : str "ab" = ['a', 'b'] := by decide

example : trim (str "  a b  ") = str "a b" := by decide

example : removeAll (str "aa") (str "baaab") = str "bab" := by decide

example :
    sentiment_analysis (str "Sentiment: Positive\nRationale: good work.") =
      ⟨str "positive", str "good work."⟩ := by decide

example : sentiment_analysis [] = ⟨str "neutral", []⟩ := by decide

example :
    sentiment_analysis (str "Sentiment: Negative\nRationale: poor quality product.") =
      ⟨str "negative", str "poor quality product."⟩ := by decide

/-- Result record of `summarize_text` (the nested `summary` object). -/
structure SummaryResult where
  text_summary : Str
  points : List Str
deriving DecidableEq

/-- Marker `"SUMMARY:"`. -/
def mSum : Str := str "SUMMARY:"

/-- Marker `"POINTS:"`. -/
def mPts : Str := str "POINTS:"

/-- One scanning step of `re.split(r'SUMMARY:|POINTS:', ...)`: does either
marker match at this position, and how long is the match?  (The markers start
with distinct characters, so at most one can match.) -/
def matchMarker (s : Str) : Option Nat :=
  if mSum.isPrefixOf s then some mSum.length
  else if mPts.isPrefixOf s then some mPts.length
  else none

/-- The text after the first `SUMMARY:`/`POINTS:` marker, if any occurs. -/
def afterFirstM : Str → Option Str
  | [] => none
  | c :: rest =>
    match matchMarker (c :: rest) with
    | some n => some (List.drop n (c :: rest))
    | none => afterFirstM rest

/-- The text before the first `SUMMARY:`/`POINTS:` marker (all of it if none
occurs). -/
def beforeFirstM : Str → Str
  | [] => []
  | c :: rest =>
    match matchMarker (c :: rest) with
    | some _ => []
    | none => c :: beforeFirstM rest

/-- Embedding of `re.findall(r'-\s*(.*?)(?=\n-|\n|$)', s, re.DOTALL)` as a
fuel-driven scan (fuel `s.length` always suffices).  At each `-` the greedy
`\s*` consumes the maximal whitespace run, the lazy capture then extends to
the first position where the lookahead holds, i.e. the next newline or the end
of the input, and scanning resumes at the match end. -/
def findallPointsF : Nat → Str → List Str
  | _, [] => []
  | 0, _ => []
  | fuel + 1, c :: rest =>
    if c = '-' then
      let afterWs := rest.dropWhile isSpace
      let cap := afterWs.takeWhile (fun d => d ≠ '\n')
      cap :: findallPointsF fuel (afterWs.drop cap.length)
    else findallPointsF fuel rest

/-- All dash captures of a points segment. -/
def findallPoints (s : Str) : List Str := findallPointsF s.length s

/-- The list comprehension `[p.strip() for p in findall(...) if p.strip()]`. -/
def pointsOf (seg : Str) : List Str :=
  ((findallPoints seg).map trim).filter (fun p => !p.isEmpty)

/-- The placeholder `"No summary generated"`. -/
def strNoSummary : Str := str "No summary generated"

/-- The placeholder `"Failed to generate summary"`. -/
def strFailed : Str := str "Failed to generate summary"

/-- The prefix of the error placeholder `f"Error: {str(e)}"`. -/
def strErrorPrefix : Str := str "Error: "

/-- The marker-split parse of a (non-empty, stripped) generated text:
`parts[1]` is the text between the first and second marker occurrence,
`parts[2]` between the second and third; `len(parts) >= k+1` holds exactly
when the corresponding `afterFirstM` chain is `some`. -/
def parseSummary (gen : Str) : SummaryResult :=
  let text_summary :=
    match afterFirstM gen with
    | some t1 => trim (beforeFirstM t1)
    | none => strNoSummary
  let points :=
    match afterFirstM gen with
    | some t1 =>
      match afterFirstM t1 with
      | some t2 => pointsOf (beforeFirstM t2)
      | none => []
    | none => []
  ⟨text_summary, points⟩

/-- Outcome of the upstream HTTP call, following the source's try/except
structure: a successful response carrying the message content, a
`requests.exceptions.RequestException`, or a payload-processing error
(`json.JSONDecodeError`, `KeyError`, `AttributeError`). -/
inductive Upstream where
  | ok (content : Str)
  | requestError (msg : Str)
  | parseError (msg : Str)

/-- Embedding of `summarize_text` from src/summarized_text_ai.py: the content
is stripped, an empty result yields the failure placeholder, otherwise the
marker-split parse runs; both except clauses build an `Error:` message with
empty points. -/
def summarize_text : Upstream → SummaryResult
  | .ok content =>
    let gen := trim content
    if gen.isEmpty then ⟨strFailed, []⟩ else parseSummary gen
  | .requestError msg => ⟨strErrorPrefix ++ msg, []⟩
  | .parseError msg => ⟨strErrorPrefix ++ msg, []⟩

example :
    summarize_text (.ok (str "SUMMARY: Short overview.\nPOINTS:\n- point one\n- point two")) =
      ⟨str "Short overview.", [str "point one", str "point two"]⟩ := by decide

example : summarize_text (.ok []) = ⟨strFailed, []⟩ := by decide

example : summarize_text (.ok (str "hello")) = ⟨strNoSummary, []⟩ := by decide

example :
    summarize_text (.ok (str "SUMMARY: s\nPOINTS:\n-\n-\n-")) = ⟨str "s", [str "-"]⟩ := by
  decide

/-- Python `str.splitlines`-style split on `'\n'` (used only to state the
spec's notion of "dash-prefixed lines"). -/
def linesOf : Str → List Str
  | [] => [[]]
  | c :: rest =>
    if c = '\n' then [] :: linesOf rest
    else
      match linesOf rest with
      | l :: ls => (c :: l) :: ls
      | [] => [[c]]

/-- Number of lines beginning with a dash marker. -/
def dashLineCount (s : Str) : Nat :=
  ((linesOf s).filter (fun l => l.head? == some '-')).length

/-- Word characters of the regex `\w` (ASCII range). -/
def isWordChar (c : Char) : Bool := c.isAlphanum || c = '_'

/-- Embedding of `re.findall(r'\w+', s)`: the maximal runs of word
characters. -/
def wordsOf : Str → List Str
  | [] => []
  | c :: rest =>
    if isWordChar c then
      match rest.head? with
      | some d =>
        if isWordChar d then
          match wordsOf rest with
          | w :: ws => (c :: w) :: ws
          | [] => [[c]]
        else [c] :: wordsOf rest
      | none => [c] :: wordsOf rest
    else wordsOf rest

example : wordsOf (str "ab c_d  e") = [str "ab", str "c_d", str "e"] := by decide

/-- The `related_words_dict` of `get_related_words` in src/text_classifier.py,
in source (insertion) order. -/
def relatedWordsTable : List (Str × List Str) :=
  [ (str "food",
     [str "eat", str "drink", str "meal", str "restaurant", str "cook", str "taste",
      str "delicious", str "breakfast", str "lunch", str "dinner", str "snack",
      str "recipe", str "cuisine", str "cheese", str "meat", str "vegetable",
      str "fruit", str "dessert", str "sweet", str "savory"]),
    (str "learning",
     [str "study", str "education", str "school", str "college", str "university",
      str "course", str "learn", str "knowledge", str "teacher", str "student",
      str "class", str "lecture", str "book", str "read", str "understand",
      str "comprehend", str "skill", str "subject"]),
    (str "technology",
     [str "computer", str "software", str "hardware", str "internet", str "digital",
      str "device", str "app", str "application", str "program", str "code",
      str "data", str "system", str "network", str "online", str "electronic",
      str "tech", str "smartphone", str "phone", str "mobile", str "camera",
      str "gadget", str "screen", str "battery", str "smart", str "technology",
      str "wifi", str "bluetooth", str "wireless", str "processor", str "memory",
      str "storage", str "photo", str "video", str "resolution", str "display",
      str "pixel", str "bought"]),
    (str "sports",
     [str "game", str "play", str "team", str "player", str "ball", str "score",
      str "win", str "lose", str "competition", str "match", str "tournament",
      str "athlete", str "coach", str "field", str "court", str "stadium",
      str "exercise", str "fitness"]),
    (str "entertainment",
     [str "movie", str "film", str "show", str "tv", str "television", str "music",
      str "song", str "concert", str "performance", str "actor", str "actress",
      str "celebrity", str "star", str "watch", str "listen", str "enjoy",
      str "fun", str "amusement"]),
    (str "health",
     [str "doctor", str "hospital", str "medicine", str "medical", str "disease",
      str "symptom", str "treatment", str "therapy", str "healthy", str "wellness",
      str "fitness", str "exercise", str "diet", str "nutrition", str "body",
      str "mental", str "physical"]),
    (str "business",
     [str "company", str "corporation", str "firm", str "enterprise",
      str "organization", str "industry", str "market", str "product",
      str "service", str "customer", str "client", str "profit", str "revenue",
      str "sales", str "management", str "executive", str "finance"]),
    (str "travel",
     [str "trip", str "journey", str "vacation", str "holiday", str "tour",
      str "tourism", str "destination", str "hotel", str "flight", str "airplane",
      str "airport", str "country", str "city", str "place", str "visit",
      str "explore", str "adventure", str "sightseeing"]) ]

/-- Embedding of `get_related_words`: the first table entry whose key equals,
contains, or is contained in the lowercased category wins (equality is
subsumed by the substring tests); otherwise the empty list. -/
def get_related_words (category : Str) : List Str :=
  let cl := lower category
  match relatedWordsTable.find? (fun kv => containsSub kv.1 cl || containsSub cl kv.1) with
  | some kv => kv.2
  | none => []

/-- The combined category score of `classify_with_fallback`, scaled by 2 to
stay in `ℕ`: the source computes `score + semantic_score * 0.5`, where `score`
sums the text occurrence counts of the category's own (distinct) words and
`semantic_score` those of its related words.  The float arithmetic of the
source is exact on these values, so `2 * score + semantic_score` compares
(and vanishes) exactly as the source's float does. -/
def fallbackScore (tw : List Str) (category : Str) : ℕ :=
  let own := (((wordsOf (lower category)).dedup).map (fun w => tw.count w)).sum
  let sem := ((get_related_words category).map (fun w => tw.count w)).sum
  2 * own + sem

/-- Python `max(xs, key=f)` over `best :: rest`: the first element attaining
the maximal key (a later element replaces the current best only on a strictly
greater key). -/
def argmaxFirst (f : Str → ℕ) : Str → List Str → Str
  | best, [] => best
  | best, c :: rest =>
    if f best < f c then argmaxFirst f c rest else argmaxFirst f best rest

/-- Python `max` over topic/score pairs, first maximal score wins. -/
def argmaxPairFirst : (Str × ℕ) → List (Str × ℕ) → (Str × ℕ)
  | best, [] => best
  | best, p :: rest =>
    if best.2 < p.2 then argmaxPairFirst p rest else argmaxPairFirst best rest

/-- Strict comparison of two exact fractions `a.1 / a.2 < b.1 / b.2` (positive
denominators) by cross-multiplication. -/
def fracLt (a b : ℕ × ℕ) : Bool := a.1 * b.2 < b.1 * a.2

/-- Python `max(xs, key=f)` where the key is an exact fraction. -/
def argmaxFracFirst (f : Str → ℕ × ℕ) : Str → List Str → Str
  | best, [] => best
  | best, c :: rest =>
    if fracLt (f best) (f c) then argmaxFracFirst f c rest else argmaxFracFirst f best rest

/-- The `tech_indicators` list of `classify_with_fallback`. -/
def techIndicators : List Str :=
  [str "smartphone", str "phone", str "mobile", str "camera", str "app",
   str "device", str "gadget", str "tech"]

/-- The `tech_terms` list of `classify_by_general_topic` (note: no "tech"). -/
def techTerms : List Str :=
  [str "smartphone", str "phone", str "mobile", str "camera", str "app",
   str "device", str "gadget"]

/-- The literal `"tech"`. -/
def strTech : Str := str "tech"

/-- The `general_topics` table of `classify_by_general_topic`, in source
(insertion) order. -/
def generalTopicsTable : List (Str × List Str) :=
  [ (str "food",
     [str "food", str "eat", str "drink", str "meal", str "cook", str "taste",
      str "recipe", str "cuisine", str "restaurant", str "chef", str "ingredient",
      str "flavor", str "dish", str "delicious"]),
    (str "education",
     [str "learn", str "study", str "education", str "school", str "college",
      str "university", str "knowledge", str "academic", str "teacher",
      str "student", str "class", str "course"]),
    (str "technology",
     [str "tech", str "computer", str "digital", str "software", str "hardware",
      str "internet", str "online", str "device", str "app", str "program",
      str "code", str "data", str "system", str "smartphone", str "phone",
      str "mobile", str "camera", str "gadget", str "electronic", str "smart",
      str "technology", str "wifi", str "bluetooth", str "wireless",
      str "processor", str "memory", str "storage", str "photo", str "video",
      str "screen", str "display", str "bought", str "new"]),
    (str "sports",
     [str "sport", str "game", str "play", str "team", str "player",
      str "competition", str "match", str "win", str "lose", str "score",
      str "athlete", str "fitness", str "exercise"]),
    (str "entertainment",
     [str "entertain", str "movie", str "film", str "show", str "music",
      str "song", str "concert", str "performance", str "actor", str "celebrity",
      str "star", str "watch", str "listen"]),
    (str "health",
     [str "health", str "medical", str "doctor", str "hospital", str "medicine",
      str "disease", str "treatment", str "therapy", str "wellness", str "body",
      str "mental", str "physical"]),
    (str "business",
     [str "business", str "company", str "market", str "product", str "service",
      str "customer", str "profit", str "revenue", str "sales", str "management",
      str "finance", str "economy"]),
    (str "travel",
     [str "travel", str "trip", str "journey", str "vacation", str "tour",
      str "destination", str "hotel", str "flight", str "country", str "city",
      str "visit", str "explore", str "adventure"]) ]

/-- Embedding of `calculate_string_similarity`: Jaccard similarity of the
character sets, kept as an exact numerator/denominator pair (the source's
float divisions of these small fractions compare exactly as the rationals
do). -/
def calculate_string_similarity (s1 s2 : Str) : ℕ × ℕ :=
  let inter := ((s1.dedup).filter (fun c => s2.contains c)).length
  let union := ((s1 ++ s2).dedup).length
  if union = 0 then (0, 1) else (inter, union)

/-- Embedding of `classify_by_general_topic` from src/text_classifier.py.
Python raises on an empty category list (`categories[0]` or `max` of an empty
dict); that unreachable case is modelled as the empty string. -/
def classify_by_general_topic (text : Str) (cats : List Str) : Str :=
  let t := lower text
  let tw := wordsOf t
  let topicPhase :=
    let scored := generalTopicsTable.filterMap (fun p =>
      let m := (p.2.filter (fun w => tw.contains w)).length
      if 0 < m then some (p.1, m) else none)
    match scored with
    | [] => cats.headD []
    | s0 :: srest =>
      let best := (argmaxPairFirst s0 srest).1
      let catScore := fun c =>
        let cl := lower c
        if containsSub cl best || containsSub best cl then ((10, 1) : ℕ × ℕ)
        else calculate_string_similarity best cl
      match cats with
      | [] => []
      | c :: cs => argmaxFracFirst catScore c cs
  if techTerms.any (fun w => containsSub t w) then
    match cats.find? (fun k => containsSub (lower k) strTech) with
    | some c => c
    | none => topicPhase
  else topicPhase

/-- Embedding of `classify_with_fallback` from src/text_classifier.py.  The
input is lowercased once (the source's repeated `.lower()` calls are no-ops on
already-lowercased text); the tech-indicator special case precedes the scoring
phase; an all-zero score row defers to `classify_by_general_topic`.  Python
raises on an empty category list; that case is modelled as the empty string. -/
def classify_with_fallback (text : Str) (cats : List Str) : Str :=
  let t := lower text
  let tw := wordsOf t
  let scorePhase :=
    match cats with
    | [] => ([] : Str)
    | c :: cs =>
      if cats.all (fun k => fallbackScore tw k == 0) then classify_by_general_topic t cats
      else argmaxFirst (fallbackScore tw) c cs
  if techIndicators.any (fun w => containsSub t w) then
    match cats.find? (fun k => containsSub (lower k) strTech) with
    | some c => c
    | none => scorePhase
  else scorePhase

example :
    classify_with_fallback (str "I like cheese and pasta with tomato sauce")
      [str "food", str "learning", str "technology", str "sports"] = str "food" := by decide

example :
    classify_with_fallback (str "The team won the championship after an exciting match")
      [str "food", str "learning", str "technology", str "sports"] = str "sports" := by decide

example :
    classify_with_fallback (str "I bought a new smartphone with an amazing camera")
      [str "food", str "learning", str "technology", str "sports"] = str "technology" := by
  decide

example :
    sentiment_analysis (str "Sentiment: Positive\nRationale: Good Work.") =
      ⟨str "positive", str "good work."⟩ := by decide

example :
    sentiment_analysis (str "rationale: a rationale: b. c.") = ⟨str "neutral", str "a."⟩ := by
  decide

example : sentiment_analysis (str "positive") = ⟨str "neutral", []⟩ := by decide

example : sentiment_analysis (str "Rationale:   ") = ⟨str "neutral", []⟩ := by decide

example : pointsOf (str "- \n- x") = [str "- x"] := by decide

example : pointsOf (str "\n- a b\n  extra\n- c") = [str "a b", str "c"] := by decide

example : pointsOf (str "-") = [] := by decide


/-- The trail-dropped string is a prefix of the original. -/
theorem dropTrail_isPref (p : Char → Bool) : ∀ s : Str, dropTrail p s <+: s := by
  intro s
  induction s with
  | nil => exact List.nil_prefix
  | cons c rest ih =>
    simp only [dropTrail]
    cases h : dropTrail p rest with
    | nil =>
      by_cases hp : p c = true
      · simp [hp]
      · simp [hp]
    | cons d ds =>
      rw [h] at ih
      obtain ⟨t, ht⟩ := ih
      exact ⟨t, by simp [← ht]⟩

/-- Dropping a trailing run never lengthens a string. -/
theorem dropTrail_length_le (p : Char → Bool) (s : Str) : (dropTrail p s).length ≤ s.length :=
  (dropTrail_isPref p s).length_le

/-- Stripping never lengthens a string. -/
theorem trim_length_le (s : Str) : (trim s).length ≤ s.length :=
  le_trans (List.dropWhile_suffix isSpace).length_le (dropTrail_length_le isSpace s)

/-- Punctuation normalization adds at most one character. -/
theorem normalizePunct_length_le (r : Str) : (normalizePunct r).length ≤ r.length + 1 := by
  unfold normalizePunct
  cases r.getLast? with
  | none => simp
  | some c =>
    by_cases hp : isPunct c = true
    · simp [hp]
    · simp [hp]

/-- A found last-space index is a valid index. -/
theorem lastSpaceIdx_lt_length : ∀ (s : Str) (k : Nat), lastSpaceIdx s = some k → k < s.length := by
  intro s
  induction s with
  | nil => intro k h; simp [lastSpaceIdx] at h
  | cons c rest ih =>
    intro k h
    simp only [lastSpaceIdx] at h
    cases h2 : lastSpaceIdx rest with
    | some i =>
      rw [h2] at h
      have := ih i h2
      simp only [Option.some.injEq] at h
      simp only [List.length_cons]
      omega
    | none =>
      rw [h2] at h
      by_cases hc : c = ' '
      · simp [hc] at h
        simp [← h]
      · simp [hc] at h

/-- A string ending in a period is a fixed point of punctuation
normalization. -/
theorem normalizePunct_concat_dot (x : Str) : normalizePunct (x ++ dotS) = x ++ dotS := by
  have h : (x ++ dotS).getLast? = some '.' := List.getLast?_concat x
  simp [normalizePunct, h, isPunct]

/-- A non-empty normalized rationale ends in terminal punctuation. -/
theorem normalizePunct_getLast (r : Str) (h : normalizePunct r ≠ []) :
    ∃ c, (normalizePunct r).getLast? = some c ∧ isPunct c = true := by
  unfold normalizePunct at h ⊢
  cases hg : r.getLast? with
  | none =>
    rw [hg] at h
    simp only at h
    exact absurd (List.getLast?_eq_none_iff.mp hg) h
  | some c =>
    by_cases hp : isPunct c = true
    · refine ⟨c, ?_, hp⟩
      simp [hp, hg]
    · refine ⟨'.', ?_, by decide⟩
      simp [hp, List.getLast?_concat]

/-- A short sentence is not truncated. -/
theorem truncateAtSpace_short (r0 : Str) (h : r0.length ≤ 100) : truncateAtSpace r0 = r0 := by
  unfold truncateAtSpace
  rw [if_neg (by omega)]

/-- Both rationale branches end with punctuation normalization, so a
non-empty rationale always ends in terminal punctuation. -/
theorem rationaleOf_punct (low : Str) (h : rationaleOf low ≠ []) :
    ∃ c, (rationaleOf low).getLast? = some c ∧ isPunct c = true := by
  unfold rationaleOf at h ⊢
  revert h
  cases afterFirst rMark low with
  | some tail => intro h; exact normalizePunct_getLast _ h
  | none => intro h; exact normalizePunct_getLast _ h

/-- Case-insensitive search used to state C1's spec-side reading: the text
after the first position where the lowercased input starts with `pat`. -/
def afterFirstCI (pat : Str) : Str → Option Str
  | [] => none
  | c :: rest =>
    if pat.isPrefixOf (lower (c :: rest)) then some (List.drop pat.length (c :: rest))
    else afterFirstCI pat rest

/-- The rationale that claim C1 predicts, following the spec's words: the
trimmed text after the first (case-insensitive) `"rationale:"` marker, up to
and including the first period, with the original character case preserved. -/
def specRationaleC1 (raw : Str) : Str :=
  match afterFirstCI rMark raw with
  | some t => trim (beforeFirst dotS t) ++ dotS
  | none => []

/-- Concrete reply used to refute C1's case-preservation conjunct. -/
def exC1 : Str := str "Sentiment: Positive\nRationale: Good Work."

/-- C1 counterexample: on a reply whose rationale text contains upper-case
letters, the extractor returns the lowercased rationale, not the
original-case text that the claim predicts. -/
theorem C1_counterexample :
    containsSub (lower exC1) sentPosPat = true ∧
    specRationaleC1 exC1 = str "Good Work." ∧
    (sentiment_analysis exC1).sentiment = strPositive ∧
    (sentiment_analysis exC1).rationale = str "good work." ∧
    (sentiment_analysis exC1).rationale ≠ specRationaleC1 exC1 := by decide

/-- C1 (amended): for raw text containing `"sentiment: positive"`
case-insensitively and a `"rationale:"` marker whose following text (cut at
the next marker occurrence, as `split` does) contains a period, the extractor
returns sentiment `"positive"` and, provided the extracted sentence does not
exceed 100 characters, the rationale is the trimmed LOWERCASED text after the
marker up to and including the first period. -/
theorem C1_amended_theorem :
    ∀ (raw tail : Str),
      containsSub (lower raw) sentPosPat = true →
      afterFirst rMark (lower raw) = some tail →
      containsSub (rationalePart tail) dotS = true →
      (trim (beforeFirst dotS (rationalePart tail)) ++ dotS).length ≤ 100 →
      sentiment_analysis raw =
        ⟨strPositive, trim (beforeFirst dotS (rationalePart tail)) ++ dotS⟩ := by
  intro raw tail h1 h2 h3 h4
  have hsen : rationaleSentence tail = trim (beforeFirst dotS (rationalePart tail)) ++ dotS := by
    simp [rationaleSentence, h3]
  have htr : truncateAtSpace (rationaleSentence tail) = rationaleSentence tail :=
    truncateAtSpace_short _ (by rw [hsen]; exact h4)
  have hr : rationaleOf (lower raw) = rationaleMarker tail := by
    simp [rationaleOf, h2]
  have hs : sentimentOf (lower raw) = strPositive := by
    simp [sentimentOf, h1]
  show (⟨sentimentOf (lower raw), rationaleOf (lower raw)⟩ : SentimentResult) = _
  rw [hs, hr, rationaleMarker, htr, hsen, normalizePunct_concat_dot]

/-- C1 amended witness at a concrete reply. -/
theorem C1_amended_witness :
    sentiment_analysis (str "Sentiment: Positive\nRationale: good work.") =
      ⟨strPositive, trim (beforeFirst dotS (rationalePart (str " good work."))) ++ dotS⟩ :=
  C1_amended_theorem (str "Sentiment: Positive\nRationale: good work.") (str " good work.")
    (by decide) (by decide) (by decide) (by decide)

/-- Concrete reply whose extracted rationale is 102 characters long with no
space among its first 100 characters. -/
def exC2 : Str :=
  str "rationale: xxxxxxxxxxxxxxxxxxxxxxxxxxxxxxxxxxxxxxxxxxxxxxxxxxxxxxxxxxxxxxxxxxxxxxxxxxxxxxxxxxxxxxxxxxxxxxxxxxxxx."

/-- C2 counterexample: when the first 100 characters of an over-long
rationale contain no space, the source skips truncation (`rfind` returns -1)
and the returned rationale exceeds 100 characters. -/
theorem C2_counterexample : 100 < (sentiment_analysis exC2).rationale.length := by decide

/-- C2 (amended): truncation applies only in the `"rationale:"`-marker branch
when the extracted sentence exceeds 100 characters and a space occurs at a
positive index among its first 100 characters; the cut is then at the last
such space (discarding the partial trailing word) and the final rationale,
after punctuation normalization, has at most 100 characters. -/
theorem C2_amended_theorem :
    ∀ (raw tail : Str) (k : Nat),
      afterFirst rMark (lower raw) = some tail →
      100 < (rationaleSentence tail).length →
      lastSpaceIdx ((rationaleSentence tail).take 100) = some k →
      0 < k →
      (sentiment_analysis raw).rationale =
          normalizePunct (trim ((rationaleSentence tail).take k)) ∧
      (sentiment_analysis raw).rationale.length ≤ 100 := by
  intro raw tail k h2 hlen hk hkpos
  have hr : (sentiment_analysis raw).rationale = rationaleMarker tail := by
    show rationaleOf (lower raw) = rationaleMarker tail
    simp [rationaleOf, h2]
  have htr : truncateAtSpace (rationaleSentence tail) =
      trim ((rationaleSentence tail).take k) := by
    unfold truncateAtSpace
    rw [if_pos hlen, hk]
    simp [hkpos]
  have hk99 : k ≤ 99 := by
    have h1 := lastSpaceIdx_lt_length _ _ hk
    have h2 : ((rationaleSentence tail).take 100).length ≤ 100 := by
      simp [List.length_take]
    omega
  constructor
  · rw [hr, rationaleMarker, htr]
  · rw [hr, rationaleMarker, htr]
    have hb1 : ((rationaleSentence tail).take k).length ≤ k := by
      simp [List.length_take]
    have hb2 := trim_length_le ((rationaleSentence tail).take k)
    have hb3 := normalizePunct_length_le (trim ((rationaleSentence tail).take k))
    omega

/-- C2 amended witness at a concrete reply: the 101-character extracted
sentence is cut at the space at index 1, yielding a 2-character rationale. -/
theorem C2_amended_witness :
    (sentiment_analysis (str "rationale: w xxxxxxxxxxxxxxxxxxxxxxxxxxxxxxxxxxxxxxxxxxxxxxxxxxxxxxxxxxxxxxxxxxxxxxxxxxxxxxxxxxxxxxxxxxxxxxxxxx.")).rationale =
        normalizePunct (trim ((rationaleSentence (str " w xxxxxxxxxxxxxxxxxxxxxxxxxxxxxxxxxxxxxxxxxxxxxxxxxxxxxxxxxxxxxxxxxxxxxxxxxxxxxxxxxxxxxxxxxxxxxxxxxx.")).take 1)) ∧
      (sentiment_analysis (str "rationale: w xxxxxxxxxxxxxxxxxxxxxxxxxxxxxxxxxxxxxxxxxxxxxxxxxxxxxxxxxxxxxxxxxxxxxxxxxxxxxxxxxxxxxxxxxxxxxxxxxx.")).rationale.length ≤ 100 :=
  C2_amended_theorem (str "rationale: w xxxxxxxxxxxxxxxxxxxxxxxxxxxxxxxxxxxxxxxxxxxxxxxxxxxxxxxxxxxxxxxxxxxxxxxxxxxxxxxxxxxxxxxxxxxxxxxxxx.")
    (str " w xxxxxxxxxxxxxxxxxxxxxxxxxxxxxxxxxxxxxxxxxxxxxxxxxxxxxxxxxxxxxxxxxxxxxxxxxxxxxxxxxxxxxxxxxxxxxxxxxx.") 1
    (by decide) (by decide) (by decide) (by decide)

/-- C4: the sentiment markers are searched case-insensitively in the fixed
priority order positive, negative, neutral; the first marker present wins,
and with none present the sentiment defaults to `"neutral"`. -/
theorem C4_theorem :
    ∀ raw : Str,
      (containsSub (lower raw) sentPosPat = true →
        (sentiment_analysis raw).sentiment = strPositive) ∧
      (containsSub (lower raw) sentPosPat = false →
        containsSub (lower raw) sentNegPat = true →
        (sentiment_analysis raw).sentiment = strNegative) ∧
      (containsSub (lower raw) sentPosPat = false →
        containsSub (lower raw) sentNegPat = false →
        containsSub (lower raw) sentNeuPat = true →
        (sentiment_analysis raw).sentiment = strNeutral) ∧
      (containsSub (lower raw) sentPosPat = false →
        containsSub (lower raw) sentNegPat = false →
        containsSub (lower raw) sentNeuPat = false →
        (sentiment_analysis raw).sentiment = strNeutral) := by
  intro raw
  refine ⟨?_, ?_, ?_, ?_⟩ <;> intros <;>
    simp_all [sentiment_analysis, sentimentOf]

/-- C4 witness: one concrete reply per priority case (the first also contains
the negative marker, exercising the priority order). -/
theorem C4_witness :
    (sentiment_analysis (str "Sentiment: negative no wait Sentiment: Positive")).sentiment =
        strPositive ∧
      (sentiment_analysis (str "Sentiment: Negative")).sentiment = strNegative ∧
      (sentiment_analysis (str "Sentiment: Neutral")).sentiment = strNeutral ∧
      (sentiment_analysis (str "nothing to see")).sentiment = strNeutral :=
  ⟨(C4_theorem _).1 (by decide),
   (C4_theorem _).2.1 (by decide) (by decide),
   (C4_theorem _).2.2.1 (by decide) (by decide) (by decide),
   (C4_theorem _).2.2.2 (by decide) (by decide) (by decide)⟩

/-- C6 counterexample: on the empty reply (and any reply whose cleaned first
sentence is empty) the no-marker branch returns an EMPTY rationale, refuting
the non-emptiness invariant. -/
theorem C6_counterexample :
    (sentiment_analysis []).rationale = [] ∧ (sentiment_analysis []).sentiment = strNeutral := by
  decide

/-- C6 (amended): the sentiment is always one of the three enumerated values,
and the rationale, WHENEVER it is non-empty, ends in one of `'.'`, `'!'`,
`'?'`; the rationale can be empty (for example on the empty reply). -/
theorem C6_amended_theorem :
    ∀ raw : Str,
      ((sentiment_analysis raw).sentiment = strPositive ∨
        (sentiment_analysis raw).sentiment = strNegative ∨
        (sentiment_analysis raw).sentiment = strNeutral) ∧
      ((sentiment_analysis raw).rationale ≠ [] →
        ∃ c, (sentiment_analysis raw).rationale.getLast? = some c ∧ isPunct c = true) := by
  intro raw
  constructor
  · show sentimentOf (lower raw) = _ ∨ sentimentOf (lower raw) = _ ∨ sentimentOf (lower raw) = _
    unfold sentimentOf
    split
    · exact Or.inl rfl
    · split
      · exact Or.inr (Or.inl rfl)
      · split
        · exact Or.inr (Or.inr rfl)
        · exact Or.inr (Or.inr rfl)
  · show rationaleOf (lower raw) ≠ [] →
      ∃ c, (rationaleOf (lower raw)).getLast? = some c ∧ isPunct c = true
    exact rationaleOf_punct (lower raw)

/-- C6 amended witness at a concrete reply with a non-empty rationale. -/
theorem C6_amended_witness :
    ∃ c,
      (sentiment_analysis (str "Rationale: nice work.")).rationale.getLast? = some c ∧
        isPunct c = true :=
  (C6_amended_theorem (str "Rationale: nice work.")).2 (by decide)

/-- C7: the summary extractor never raises: an empty (stripped) generated
text yields the failure placeholder with no points, and both caught upstream
failure kinds yield an `Error:`-prefixed message with no points. -/
theorem C7_theorem :
    (∀ content : Str, trim content = [] →
      summarize_text (.ok content) = ⟨strFailed, []⟩) ∧
    (∀ msg : Str, summarize_text (.requestError msg) = ⟨strErrorPrefix ++ msg, []⟩) ∧
    (∀ msg : Str, summarize_text (.parseError msg) = ⟨strErrorPrefix ++ msg, []⟩) := by
  refine ⟨?_, fun msg => rfl, fun msg => rfl⟩
  intro content h
  simp [summarize_text, h]

/-- C7 witness: a whitespace-only generated text strips to empty and yields
the failure placeholder. -/
theorem C7_witness : summarize_text (.ok (str "   ")) = ⟨strFailed, []⟩ :=
  C7_theorem.1 (str "   ") (by decide)

/-- Delimiters of the topic extractor: whitespace and slash. -/
def isTopicDelim (c : Char) : Bool := isSpace c || c = '/'

/-- Modelled from the spec: the topic extractor (the `classify` function that
test_text_classifier.py imports from text_classifier) is not present under
src/; spec section 4.3 defines it as: trim whitespace, return `"Unknown"` on
empty input, otherwise split on runs of whitespace and/or slash characters
and return the first token as the topic. -/
def classifyTopic (raw : Str) : Str :=
  let t := trim raw
  if t.isEmpty then str "Unknown"
  else (t.dropWhile isTopicDelim).takeWhile (fun c => !isTopicDelim c)

/-- At each cons either the predicate holds for the head and it is dropped,
or the head survives `dropWhile` with the predicate false on it. -/
theorem dropWhile_head_false (p : Char → Bool) :
    ∀ (l : Str) (c : Char) (cs : Str), l.dropWhile p = c :: cs → p c = false := by
  intro l
  induction l with
  | nil => intro c cs h; simp [List.dropWhile] at h
  | cons a rest ih =>
    intro c cs h
    by_cases hp : p a = true
    · rw [List.dropWhile_cons_of_pos hp] at h
      exact ih c cs h
    · rw [List.dropWhile_cons_of_neg hp] at h
      cases h
      exact Bool.eq_false_iff.mpr hp

/-- C8: the topic extractor returns `"Unknown"` exactly on
whitespace-only input, every returned topic is free of whitespace and slash
characters, and the spec scenario `"Technology/gadgets"` yields
`"Technology"`. -/
theorem C8_theorem :
    (∀ raw : Str, trim raw = [] → classifyTopic raw = str "Unknown") ∧
    (∀ raw : Str, ∀ c ∈ classifyTopic raw, isTopicDelim c = false) ∧
    classifyTopic (str "Technology/gadgets") = str "Technology" := by
  refine ⟨?_, ?_, by decide⟩
  · intro raw h
    simp [classifyTopic, h]
  · intro raw c hc
    simp only [classifyTopic] at hc
    split at hc
    · revert hc
      revert c
      decide
    · simpa using List.mem_takeWhile_imp hc

/-- C8 witness: whitespace-only input yields `"Unknown"`, and the first
character of the scenario's topic is not a delimiter. -/
theorem C8_witness :
    classifyTopic (str "  ") = str "Unknown" ∧ isTopicDelim 'T' = false :=
  ⟨C8_theorem.1 (str "  ") (by decide),
   C8_theorem.2.1 (str "Technology/gadgets") 'T' (by decide)⟩

/-- C10: when the lowercased text contains a tech indicator and some category
contains `"tech"`, the fallback classifier returns the first such category
immediately, independently of all keyword scores. -/
theorem C10_theorem :
    ∀ (text : Str) (cats : List Str) (c : Str),
      techIndicators.any (fun w => containsSub (lower text) w) = true →
      cats.find? (fun k => containsSub (lower k) strTech) = some c →
      classify_with_fallback text cats = c := by
  intro text cats c h1 h2
  simp [classify_with_fallback, h1, h2]

/-- C10 witness: the text mentions a phone, both categories contain "tech",
and the first one wins even though it scores zero keyword matches. -/
theorem C10_witness :
    classify_with_fallback (str "my phone died") [str "biotech", str "technology"] =
      str "biotech" :=
  C10_theorem (str "my phone died") [str "biotech", str "technology"] (str "biotech")
    (by decide) (by decide)

/-- No capture of the dash scan contains a newline: every capture is a
`takeWhile` up to the next newline. -/
theorem findallPointsF_no_newline :
    ∀ (fuel : Nat) (s : Str), ∀ p ∈ findallPointsF fuel s, '\n' ∉ p := by
  intro fuel
  induction fuel with
  | zero => intro s p hp; cases s <;> simp [findallPointsF] at hp
  | succ fuel ih =>
    intro s p hp
    cases s with
    | nil => simp [findallPointsF] at hp
    | cons c rest =>
      simp only [findallPointsF] at hp
      by_cases hc : c = '-'
      · rw [if_pos hc] at hp
        rcases List.mem_cons.mp hp with h | h
        · subst h
          intro hmem
          have := List.mem_takeWhile_imp hmem
          simp at this
        · exact ih _ p h
      · rw [if_neg hc] at hp
        exact ih _ p hp

/-- The dash scan emits at most one capture per dash character. -/
theorem findallPointsF_length_le :
    ∀ (fuel : Nat) (s : Str), (findallPointsF fuel s).length ≤ s.count '-' := by
  intro fuel
  induction fuel with
  | zero => intro s; cases s <;> simp [findallPointsF]
  | succ fuel ih =>
    intro s
    cases s with
    | nil => simp [findallPointsF]
    | cons c rest =>
      simp only [findallPointsF]
      by_cases hc : c = '-'
      · rw [if_pos hc]
        subst hc
        have hsub1 : List.Sublist (rest.dropWhile isSpace) rest :=
          (List.dropWhile_suffix isSpace).sublist
        have hsub2 :
            List.Sublist
              ((rest.dropWhile isSpace).drop
                ((rest.dropWhile isSpace).takeWhile (fun d => d ≠ '\n')).length)
              (rest.dropWhile isSpace) :=
          (List.drop_suffix _ _).sublist
        have hcount := (hsub2.trans hsub1).count_le '-'
        have hrec := ih ((rest.dropWhile isSpace).drop
          ((rest.dropWhile isSpace).takeWhile (fun d => d ≠ '\n')).length)
        have hcons : (('-' : Char) :: rest).count '-' = rest.count '-' + 1 := by
          simp [List.count_cons]
        simp only [List.length_cons, hcons]
        omega
      · rw [if_neg hc]
        have hcons : (c :: rest).count '-' = rest.count '-' := by
          simp [List.count_cons]
          intro h
          exact absurd h hc
        rw [hcons]
        exact ih rest

/-- The tail after the first marker is a suffix of the input. -/
theorem afterFirstM_suffix : ∀ (s t : Str), afterFirstM s = some t → t <:+ s := by
  intro s
  induction s with
  | nil => intro t h; exact Option.noConfusion h
  | cons c rest ih =>
    intro t h
    simp only [afterFirstM] at h
    cases hm : matchMarker (c :: rest) with
    | some n =>
      rw [hm] at h
      simp only [Option.some.injEq] at h
      rw [← h]
      exact List.drop_suffix n (c :: rest)
    | none =>
      rw [hm] at h
      exact (ih t h).trans (List.suffix_cons c rest)

/-- The text before the first marker is a prefix of the input. -/
theorem beforeFirstM_isPref : ∀ s : Str, beforeFirstM s <+: s := by
  intro s
  induction s with
  | nil => simp [beforeFirstM]
  | cons c rest ih =>
    simp only [beforeFirstM]
    cases hm : matchMarker (c :: rest) with
    | some n => simp
    | none =>
      obtain ⟨t, ht⟩ := ih
      exact ⟨t, by rw [List.cons_append, ht]⟩

/-- The stripped string is a sublist of the original. -/
theorem trim_sublist (s : Str) : List.Sublist (trim s) s :=
  (List.dropWhile_suffix isSpace).sublist.trans (dropTrail_isPref isSpace s).sublist

/-- A non-empty trail-dropped string ends in a character failing the
predicate. -/
theorem dropTrail_getLast_false (p : Char → Bool) :
    ∀ s : Str, dropTrail p s ≠ [] →
      ∃ c, (dropTrail p s).getLast? = some c ∧ p c = false := by
  intro s
  induction s with
  | nil => intro h; simp [dropTrail] at h
  | cons c rest ih =>
    intro h
    simp only [dropTrail] at h ⊢
    cases hd : dropTrail p rest with
    | nil =>
      rw [hd] at h
      by_cases hp : p c = true
      · rw [if_pos hp] at h
        exact absurd rfl h
      · rw [if_neg hp]
        exact ⟨c, rfl, Bool.eq_false_iff.mpr hp⟩
    | cons d ds =>
      obtain ⟨e, he, hpe⟩ := ih (by simp [hd])
      rw [hd] at he
      exact ⟨e, by rw [List.getLast?_cons_cons, he], hpe⟩

/-- A string whose last character fails the predicate is unchanged by
`dropTrail`. -/
theorem dropTrail_of_getLast_false (p : Char → Bool) :
    ∀ (s : Str) (c : Char), s.getLast? = some c → p c = false → dropTrail p s = s := by
  intro s
  induction s with
  | nil => intro c h; simp at h
  | cons a rest ih =>
    intro c h hp
    cases rest with
    | nil =>
      simp at h
      subst h
      simp [dropTrail, hp]
    | cons b rs =>
      rw [List.getLast?_cons_cons] at h
      have hrec := ih c h hp
      have hstep : dropTrail p (a :: b :: rs) =
          match dropTrail p (b :: rs) with
          | [] => if p a = true then [] else [a]
          | d :: ds => a :: d :: ds := rfl
      rw [hstep, hrec]

/-- Stripping is idempotent. -/
theorem trim_idem (s : Str) : trim (trim s) = trim s := by
  cases h : trim s with
  | nil => simp [trim, dropTrail, List.dropWhile]
  | cons c cs =>
    have hX : dropTrail isSpace s ≠ [] := by
      intro hx
      rw [trim, hx] at h
      simp [List.dropWhile] at h
    obtain ⟨d, hd, hpd⟩ := dropTrail_getLast_false isSpace s hX
    have hhead : isSpace c = false := dropWhile_head_false isSpace (dropTrail isSpace s) c cs h
    have hlast : (trim s).getLast? = some d := by
      obtain ⟨t, ht⟩ := List.dropWhile_suffix (l := dropTrail isSpace s) isSpace
      have ht2 : t ++ trim s = dropTrail isSpace s := ht
      have hne : trim s ≠ [] := by rw [h]; simp
      calc (trim s).getLast? = (t ++ trim s).getLast? :=
            (List.getLast?_append_of_ne_nil t hne).symm
        _ = (dropTrail isSpace s).getLast? := by rw [ht2]
        _ = some d := hd
    rw [h] at hlast
    calc trim (c :: cs) = List.dropWhile isSpace (dropTrail isSpace (c :: cs)) := rfl
      _ = List.dropWhile isSpace (c :: cs) := by
          rw [dropTrail_of_getLast_false isSpace (c :: cs) d hlast hpd]
      _ = c :: cs := List.dropWhile_cons_of_neg (by simp [hhead])

/-- Every returned point is non-empty, stripped, and newline-free. -/
theorem pointsOf_mem (seg : Str) (p : Str) (hp : p ∈ pointsOf seg) :
    p ≠ [] ∧ trim p = p ∧ '\n' ∉ p := by
  unfold pointsOf at hp
  have h1 := List.mem_filter.mp hp
  obtain ⟨q, hq, hpq⟩ := List.mem_map.mp h1.1
  have hne : p ≠ [] := by
    intro hnil
    rw [hnil] at h1
    simp at h1
  refine ⟨hne, ?_, ?_⟩
  · rw [← hpq]
    exact trim_idem q
  · intro hmem
    rw [← hpq] at hmem
    have h2 : '\n' ∈ q := (trim_sublist q).subset hmem
    exact absurd h2 (findallPointsF_no_newline seg.length seg q hq)

/-- The number of returned points is at most the number of dashes in the
points segment. -/
theorem pointsOf_length_le (seg : Str) : (pointsOf seg).length ≤ seg.count '-' := by
  unfold pointsOf
  calc (((findallPoints seg).map trim).filter (fun p => !p.isEmpty)).length
      ≤ ((findallPoints seg).map trim).length := List.length_filter_le _ _
    _ = (findallPoints seg).length := List.length_map _ _
    _ ≤ seg.count '-' := findallPointsF_length_le seg.length seg

/-- The points of a parsed summary are empty or come from a points segment
that is a sublist of the generated text. -/
theorem summarize_points_cases (content : Str) :
    (summarize_text (.ok content)).points = [] ∨
      ∃ seg : Str, List.Sublist seg content ∧
        (summarize_text (.ok content)).points = pointsOf seg := by
  show (let gen := trim content;
        if gen.isEmpty then (⟨strFailed, []⟩ : SummaryResult) else parseSummary gen).points = [] ∨ _
  by_cases h : (trim content).isEmpty
  · left
    simp [h]
  · rw [if_neg h]
    show (parseSummary (trim content)).points = [] ∨ _
    unfold parseSummary
    cases h1 : afterFirstM (trim content) with
    | none => left; rfl
    | some t1 =>
      cases h2 : afterFirstM t1 with
      | none => left; simp [h2]
      | some t2 =>
        right
        refine ⟨beforeFirstM t2, ?_, by simp [summarize_text, h, parseSummary, h1, h2]⟩
        exact ((beforeFirstM_isPref t2).sublist.trans
          ((afterFirstM_suffix t1 t2 h2).sublist.trans
            ((afterFirstM_suffix (trim content) t1 h1).sublist.trans
              (trim_sublist content))))

/-- Concrete reply with three dash-prefixed lines whose captures are almost
all empty. -/
def exC3 : Str := str "SUMMARY: s\nPOINTS:\n-\n-\n-"

/-- C3 counterexample: a reply with both markers and three dash-prefixed
lines for which the extractor returns fewer than three points (the dash
captures stop at the next newline and empty captures are dropped). -/
theorem C3_counterexample :
    containsSub exC3 mSum = true ∧
    containsSub exC3 mPts = true ∧
    3 ≤ dashLineCount exC3 ∧
    (summarize_text (.ok exC3)).points.length < 3 := by decide

/-- C3 (amended): each dash capture extends only to the next newline or the
end of input (newlines never occur inside a point), captures are trimmed and
empty captures are dropped (so every returned point is non-empty and equal to
its own trim), and at most one point arises per dash character of the text;
on three bare dash lines the extractor thus returns a single point "-" (the
greedy whitespace run after a dash absorbs the newline, so the next dash
becomes capture content), falling short of the claimed lower bound of
three. -/
theorem C3_amended_theorem :
    ∀ content : Str,
      (∀ p ∈ (summarize_text (.ok content)).points,
        p ≠ [] ∧ trim p = p ∧ '\n' ∉ p) ∧
      (summarize_text (.ok content)).points.length ≤ content.count '-' := by
  intro content
  rcases summarize_points_cases content with h | ⟨seg, hsub, h⟩
  · constructor
    · intro p hp
      rw [h] at hp
      exact absurd hp (List.not_mem_nil p)
    · rw [h]
      simp
  · constructor
    · intro p hp
      rw [h] at hp
      exact pointsOf_mem seg p hp
    · rw [h]
      exact le_trans (pointsOf_length_le seg) (hsub.count_le '-')

/-- C3 amended witness: the spec scenario's first point is non-empty,
stripped, newline-free, and the point count is bounded by the dash count. -/
theorem C3_amended_witness :
    ((str "point one") ≠ [] ∧ trim (str "point one") = str "point one" ∧
      '\n' ∉ str "point one") ∧
    (summarize_text
        (.ok (str "SUMMARY: Short overview.\nPOINTS:\n- point one\n- point two"))).points.length ≤
      (str "SUMMARY: Short overview.\nPOINTS:\n- point one\n- point two").count '-' :=
  ⟨(C3_amended_theorem (str "SUMMARY: Short overview.\nPOINTS:\n- point one\n- point two")).1
      (str "point one") (by decide),
   (C3_amended_theorem (str "SUMMARY: Short overview.\nPOINTS:\n- point one\n- point two")).2⟩

/-- A pattern with a non-space head is never a prefix at a whitespace
character. -/
theorem isPrefixOf_space_head (d : Char) (ps : Str) (hd : isSpace d = false)
    (c : Char) (x : Str) (hc : isSpace c = true) :
    (d :: ps).isPrefixOf (c :: x) = false := by
  simp only [List.isPrefixOf]
  have hne : (d == c) = false := by
    simp only [beq_eq_false_iff_ne]
    intro he
    rw [he] at hd
    rw [hd] at hc
    exact Bool.noConfusion hc
  rw [hne]
  simp

/-- Neither section marker matches at a whitespace character. -/
theorem matchMarker_space_head (c : Char) (x : Str) (hc : isSpace c = true) :
    matchMarker (c :: x) = none := by
  have h1 : mSum.isPrefixOf (c :: x) = false := by
    have he : mSum = 'S' :: str "UMMARY:" := by decide
    rw [he]
    exact isPrefixOf_space_head 'S' (str "UMMARY:") (by decide) c x hc
  have h2 : mPts.isPrefixOf (c :: x) = false := by
    have he : mPts = 'P' :: str "OINTS:" := by decide
    rw [he]
    exact isPrefixOf_space_head 'P' (str "OINTS:") (by decide) c x hc
  simp [matchMarker, h1, h2]

/-- An all-whitespace string contains no marker. -/
theorem afterFirstM_all_space : ∀ w : Str, (∀ e ∈ w, isSpace e = true) → afterFirstM w = none := by
  intro w
  induction w with
  | nil => intro _; rfl
  | cons c rest ih =>
    intro hall
    have hm := matchMarker_space_head c rest (hall c (by simp))
    show (match matchMarker (c :: rest) with
          | some n => some (List.drop n (c :: rest))
          | none => afterFirstM rest) = none
    rw [hm]
    exact ih (fun e he => hall e (by simp [he]))

/-- An all-whitespace string is its own pre-marker segment. -/
theorem beforeFirstM_all_space : ∀ w : Str, (∀ e ∈ w, isSpace e = true) → beforeFirstM w = w := by
  intro w
  induction w with
  | nil => intro _; rfl
  | cons c rest ih =>
    intro hall
    have hm := matchMarker_space_head c rest (hall c (by simp))
    show (match matchMarker (c :: rest) with
          | some _ => []
          | none => c :: beforeFirstM rest) = c :: rest
    rw [hm, ih (fun e he => hall e (by simp [he]))]

/-- Appending trailing whitespace does not change whether an all-non-space
pattern is a prefix. -/
theorem isPrefixOf_append_space :
    ∀ (pat x w : Str), (∀ e ∈ pat, isSpace e = false) → (∀ e ∈ w, isSpace e = true) →
      pat.isPrefixOf (x ++ w) = pat.isPrefixOf x := by
  intro pat
  induction pat with
  | nil => intro x w _ _; simp [List.isPrefixOf]
  | cons p ps ih =>
    intro x w hpat hw
    cases x with
    | nil =>
      simp only [List.nil_append]
      cases w with
      | nil => rfl
      | cons e w2 =>
        have hne : (p == e) = false := by
          simp only [beq_eq_false_iff_ne]
          intro he
          have ha := hpat p (by simp)
          have hb := hw e (by simp)
          rw [he] at ha
          rw [ha] at hb
          exact Bool.noConfusion hb
        simp [List.isPrefixOf, hne]
    | cons a x2 =>
      simp only [List.cons_append, List.isPrefixOf, List.append_eq]
      rw [ih x2 w (fun e he => hpat e (by simp [he])) hw]

/-- Appending trailing whitespace does not change the marker match. -/
theorem matchMarker_append_space (x w : Str) (hw : ∀ e ∈ w, isSpace e = true) :
    matchMarker (x ++ w) = matchMarker x := by
  unfold matchMarker
  rw [isPrefixOf_append_space mSum x w (by decide) hw,
    isPrefixOf_append_space mPts x w (by decide) hw]

/-- A successful `isPrefixOf` bounds the pattern length. -/
theorem isPrefixOf_length_le :
    ∀ (l1 l2 : Str), l1.isPrefixOf l2 = true → l1.length ≤ l2.length := by
  intro l1
  induction l1 with
  | nil => intro l2 _; simp
  | cons a as ih =>
    intro l2 h
    cases l2 with
    | nil => simp [List.isPrefixOf] at h
    | cons b bs =>
      simp only [List.isPrefixOf, Bool.and_eq_true] at h
      have := ih bs h.2
      simp only [List.length_cons]
      omega

/-- A marker match consumes at most the whole string. -/
theorem matchMarker_le_length (s : Str) (n : Nat) (h : matchMarker s = some n) :
    n ≤ s.length := by
  unfold matchMarker at h
  by_cases h1 : mSum.isPrefixOf s = true
  · rw [if_pos h1] at h
    have hle := isPrefixOf_length_le mSum s h1
    simp only [Option.some.injEq] at h
    omega
  · rw [if_neg h1] at h
    by_cases h2 : mPts.isPrefixOf s = true
    · rw [if_pos h2] at h
      have hle := isPrefixOf_length_le mPts s h2
      simp only [Option.some.injEq] at h
      omega
    · rw [if_neg h2] at h
      exact absurd h (by simp)

/-- Appending trailing whitespace shifts the post-marker tail by that
whitespace. -/
theorem afterFirstM_append_space :
    ∀ (x w : Str), (∀ e ∈ w, isSpace e = true) →
      afterFirstM (x ++ w) = (afterFirstM x).map (fun t => t ++ w) := by
  intro x
  induction x with
  | nil =>
    intro w hw
    simp [afterFirstM_all_space w hw]
    rfl
  | cons c x2 ih =>
    intro w hw
    simp only [List.cons_append]
    have hmm : matchMarker (c :: (x2 ++ w)) = matchMarker (c :: x2) :=
      matchMarker_append_space (c :: x2) w hw
    show (match matchMarker (c :: (x2 ++ w)) with
          | some n => some (List.drop n (c :: (x2 ++ w)))
          | none => afterFirstM (x2 ++ w)) = _
    rw [hmm]
    cases hm : matchMarker (c :: x2) with
    | some n =>
      have hlen : n ≤ (c :: x2).length := matchMarker_le_length _ n hm
      have ha : afterFirstM (c :: x2) = some (List.drop n (c :: x2)) := by
        show (match matchMarker (c :: x2) with
              | some n => some (List.drop n (c :: x2))
              | none => afterFirstM x2) = _
        rw [hm]
      rw [ha]
      have hdrop : List.drop n (c :: (x2 ++ w)) = List.drop n (c :: x2) ++ w := by
        show List.drop n ((c :: x2) ++ w) = List.drop n (c :: x2) ++ w
        exact List.drop_append_of_le_length hlen
      show some (List.drop n (c :: (x2 ++ w))) = some (List.drop n (c :: x2) ++ w)
      rw [hdrop]
    | none =>
      have ha : afterFirstM (c :: x2) = afterFirstM x2 := by
        show (match matchMarker (c :: x2) with
              | some n => some (List.drop n (c :: x2))
              | none => afterFirstM x2) = _
        rw [hm]
      rw [ha, ih w hw]

/-- Leading whitespace is transparent to the marker search. -/
theorem afterFirstM_space_prepend :
    ∀ (w t : Str), (∀ e ∈ w, isSpace e = true) → afterFirstM (w ++ t) = afterFirstM t := by
  intro w
  induction w with
  | nil => intro t _; rfl
  | cons c w2 ih =>
    intro t hw
    have hm : matchMarker (c :: (w2 ++ t)) = none :=
      matchMarker_space_head c (w2 ++ t) (hw c (by simp))
    show (match matchMarker (c :: (w2 ++ t)) with
          | some n => some (List.drop n (c :: (w2 ++ t)))
          | none => afterFirstM (w2 ++ t)) = _
    rw [hm]
    exact ih t (fun e he => hw e (by simp [he]))

/-- Appending trailing whitespace leaves the pre-marker segment unchanged
when a marker exists, and extends it by the whitespace otherwise. -/
theorem beforeFirstM_append_space :
    ∀ (x w : Str), (∀ e ∈ w, isSpace e = true) →
      beforeFirstM (x ++ w) =
        if (afterFirstM x).isSome then beforeFirstM x else x ++ w := by
  intro x
  induction x with
  | nil =>
    intro w hw
    simp [beforeFirstM_all_space w hw]
    rfl
  | cons c x2 ih =>
    intro w hw
    simp only [List.cons_append]
    have hmm : matchMarker (c :: (x2 ++ w)) = matchMarker (c :: x2) :=
      matchMarker_append_space (c :: x2) w hw
    cases hm : matchMarker (c :: x2) with
    | some n =>
      have h1 : beforeFirstM (c :: (x2 ++ w)) = [] := by
        show (match matchMarker (c :: (x2 ++ w)) with
              | some _ => []
              | none => c :: beforeFirstM (x2 ++ w)) = []
        rw [hmm, hm]
      have h2 : beforeFirstM (c :: x2) = [] := by
        show (match matchMarker (c :: x2) with
              | some _ => []
              | none => c :: beforeFirstM x2) = []
        rw [hm]
      have h3 : afterFirstM (c :: x2) = some (List.drop n (c :: x2)) := by
        show (match matchMarker (c :: x2) with
              | some n => some (List.drop n (c :: x2))
              | none => afterFirstM x2) = _
        rw [hm]
      rw [h1, h3, h2]
      simp
    | none =>
      have h1 : beforeFirstM (c :: (x2 ++ w)) = c :: beforeFirstM (x2 ++ w) := by
        show (match matchMarker (c :: (x2 ++ w)) with
              | some _ => []
              | none => c :: beforeFirstM (x2 ++ w)) = _
        rw [hmm, hm]
      have h2 : beforeFirstM (c :: x2) = c :: beforeFirstM x2 := by
        show (match matchMarker (c :: x2) with
              | some _ => []
              | none => c :: beforeFirstM x2) = _
        rw [hm]
      have h3 : afterFirstM (c :: x2) = afterFirstM x2 := by
        show (match matchMarker (c :: x2) with
              | some n => some (List.drop n (c :: x2))
              | none => afterFirstM x2) = _
        rw [hm]
      rw [h1, h3, h2, ih w hw]
      by_cases hs : (afterFirstM x2).isSome = true
      · rw [if_pos hs, if_pos hs]
      · rw [if_neg hs, if_neg hs]

/-- An all-`p` string drops to nothing. -/
theorem dropTrail_all (p : Char → Bool) :
    ∀ w : Str, (∀ e ∈ w, p e = true) → dropTrail p w = [] := by
  intro w
  induction w with
  | nil => intro _; rfl
  | cons c rest ih =>
    intro hall
    simp only [dropTrail]
    rw [ih (fun e he => hall e (by simp [he]))]
    simp [hall c (by simp)]

/-- Dropping a trailing run absorbs appended all-`p` text. -/
theorem dropTrail_append_all (p : Char → Bool) :
    ∀ (x w : Str), (∀ e ∈ w, p e = true) → dropTrail p (x ++ w) = dropTrail p x := by
  intro x
  induction x with
  | nil => intro w hw; simp [dropTrail_all p w hw, dropTrail]
  | cons c x2 ih =>
    intro w hw
    simp only [List.cons_append, dropTrail, List.append_eq]
    rw [ih w hw]

/-- Stripping absorbs appended trailing whitespace. -/
theorem trim_append_space (x w : Str) (hw : ∀ e ∈ w, isSpace e = true) :
    trim (x ++ w) = trim x := by
  unfold trim
  rw [dropTrail_append_all isSpace x w hw]

/-- Every string splits into its trail-dropped part and an all-`p` suffix. -/
theorem dropTrail_decomp (p : Char → Bool) :
    ∀ s : Str, ∃ w, s = dropTrail p s ++ w ∧ ∀ e ∈ w, p e = true := by
  intro s
  induction s with
  | nil => exact ⟨[], rfl, by simp⟩
  | cons c rest ih =>
    obtain ⟨w, hw, hall⟩ := ih
    cases h : dropTrail p rest with
    | nil =>
      rw [h] at hw
      simp only [List.nil_append] at hw
      by_cases hp : p c = true
      · refine ⟨c :: rest, ?_, ?_⟩
        · simp only [dropTrail, h]
          rw [if_pos hp]
          simp
        · intro e he
          rcases List.mem_cons.mp he with rfl | he2
          · exact hp
          · rw [hw] at he2
            exact hall e he2
      · refine ⟨rest, ?_, fun e he => by rw [hw] at he; exact hall e he⟩
        simp only [dropTrail, h]
        rw [if_neg hp]
        simp
    | cons d ds =>
      refine ⟨w, ?_, hall⟩
      rw [h] at hw
      simp only [dropTrail, h]
      simp [hw]

/-- A marker-free string is its own pre-marker segment. -/
theorem beforeFirstM_of_none : ∀ s : Str, afterFirstM s = none → beforeFirstM s = s := by
  intro s
  induction s with
  | nil => intro _; rfl
  | cons c rest ih =>
    intro h
    cases hm : matchMarker (c :: rest) with
    | some n =>
      exfalso
      have ha : afterFirstM (c :: rest) = some (List.drop n (c :: rest)) := by
        show (match matchMarker (c :: rest) with
              | some n => some (List.drop n (c :: rest))
              | none => afterFirstM rest) = _
        rw [hm]
      rw [ha] at h
      exact Option.noConfusion h
    | none =>
      have ha : afterFirstM (c :: rest) = afterFirstM rest := by
        show (match matchMarker (c :: rest) with
              | some n => some (List.drop n (c :: rest))
              | none => afterFirstM rest) = _
        rw [hm]
      rw [ha] at h
      show (match matchMarker (c :: rest) with
            | some _ => []
            | none => c :: beforeFirstM rest) = c :: rest
      rw [hm, ih h]

/-- Every string is leading whitespace, its strip, then trailing
whitespace. -/
theorem trim_decomp (s : Str) :
    ∃ w1 w2, s = w1 ++ (trim s ++ w2) ∧ (∀ e ∈ w1, isSpace e = true) ∧
      (∀ e ∈ w2, isSpace e = true) := by
  obtain ⟨w2, hw2, hall2⟩ := dropTrail_decomp isSpace s
  refine ⟨(dropTrail isSpace s).takeWhile isSpace, w2, ?_, ?_, hall2⟩
  · conv_lhs => rw [hw2]
    rw [← List.append_assoc]
    congr 1
    rw [show trim s = List.dropWhile isSpace (dropTrail isSpace s) from rfl]
    exact (List.takeWhile_append_dropWhile isSpace (dropTrail isSpace s)).symm
  · intro e he
    exact List.mem_takeWhile_imp he

/-- The text summary of a non-degenerate reply is determined by the
marker-based split of the raw (unstripped) reply, exactly as the claim
phrases it: segment index 1 trimmed, or the placeholder. -/
theorem text_summary_split (content : Str) (h : trim content ≠ []) :
    (summarize_text (.ok content)).text_summary =
      match afterFirstM content with
      | some t1 => trim (beforeFirstM t1)
      | none => strNoSummary := by
  obtain ⟨w1, w2, hdec, hw1, hw2⟩ := trim_decomp content
  have h1 : afterFirstM content =
      (afterFirstM (trim content)).map (fun t => t ++ w2) := by
    conv_lhs => rw [hdec]
    rw [afterFirstM_space_prepend w1 (trim content ++ w2) hw1]
    exact afterFirstM_append_space (trim content) w2 hw2
  have hne : (trim content).isEmpty = false := by
    cases ht : trim content
    · exact absurd ht h
    · rfl
  have hcode : (summarize_text (.ok content)).text_summary =
      match afterFirstM (trim content) with
      | some t1 => trim (beforeFirstM t1)
      | none => strNoSummary := by
    simp [summarize_text, hne, parseSummary]
  rw [hcode]
  cases h2 : afterFirstM (trim content) with
  | none =>
    rw [h2] at h1
    simp only [Option.map_none'] at h1
    rw [h1]
  | some t1 =>
    rw [h2] at h1
    simp only [Option.map_some'] at h1
    rw [h1]
    show trim (beforeFirstM t1) = trim (beforeFirstM (t1 ++ w2))
    rw [beforeFirstM_append_space t1 w2 hw2]
    by_cases h3 : (afterFirstM t1).isSome = true
    · rw [if_pos h3]
    · rw [if_neg h3, trim_append_space _ _ hw2,
        beforeFirstM_of_none t1 (Option.not_isSome_iff_eq_none.mp h3)]

/-- C5 counterexample: the empty reply splits into a single segment but the
extractor returns the failure placeholder, not `"No summary generated"`. -/
theorem C5_counterexample :
    afterFirstM [] = none ∧
    (summarize_text (.ok [])).text_summary = strFailed ∧
    strFailed ≠ strNoSummary := by decide

/-- C5 (amended): for every raw reply whose whitespace-trimmed form is
non-empty, splitting the text on the literal markers yields `text_summary`
equal to segment index 1 trimmed when at least two segments exist and
`"No summary generated"` otherwise; the spec scenario holds as stated.  (The
empty or whitespace-only reply instead returns the failure placeholder.) -/
theorem C5_amended_theorem :
    (∀ content : Str, trim content ≠ [] →
      (summarize_text (.ok content)).text_summary =
        match afterFirstM content with
        | some t1 => trim (beforeFirstM t1)
        | none => strNoSummary) ∧
    summarize_text (.ok (str "SUMMARY: Short overview.\nPOINTS:\n- point one\n- point two")) =
      ⟨str "Short overview.", [str "point one", str "point two"]⟩ :=
  ⟨fun content h => text_summary_split content h, by decide⟩

/-- C5 amended witness: a marker-free reply yields the placeholder through
the amended rule. -/
theorem C5_amended_witness :
    (summarize_text (.ok (str "hello"))).text_summary =
      match afterFirstM (str "hello") with
      | some t1 => trim (beforeFirstM t1)
      | none => strNoSummary :=
  C5_amended_theorem.1 (str "hello") (by decide)

/-- The running maximum is among the candidates. -/
theorem argmaxFirst_mem (f : Str → Nat) :
    ∀ (l : List Str) (a : Str), argmaxFirst f a l ∈ a :: l := by
  intro l
  induction l with
  | nil => intro a; simp [argmaxFirst]
  | cons c rest ih =>
    intro a
    simp only [argmaxFirst]
    by_cases h : f a < f c
    · rw [if_pos h]
      rcases List.mem_cons.mp (ih c) with h2 | h2
      · rw [h2]; simp
      · simp [h2]
    · rw [if_neg h]
      rcases List.mem_cons.mp (ih a) with h2 | h2
      · rw [h2]; simp
      · simp [h2]

/-- The running maximum dominates every candidate's key. -/
theorem argmaxFirst_ge (f : Str → Nat) :
    ∀ (l : List Str) (a b : Str), b ∈ a :: l → f b ≤ f (argmaxFirst f a l) := by
  intro l
  induction l with
  | nil =>
    intro a b hb
    simp at hb
    subst hb
    simp [argmaxFirst]
  | cons c rest ih =>
    intro a b hb
    simp only [argmaxFirst]
    by_cases h : f a < f c
    · rw [if_pos h]
      rcases List.mem_cons.mp hb with rfl | hb2
      · have := ih c c (by simp)
        omega
      · exact ih c b hb2
    · rw [if_neg h]
      rcases List.mem_cons.mp hb with rfl | hb2
      · exact ih b b (by simp)
      · rcases List.mem_cons.mp hb2 with rfl | hb3
        · have h2 := ih a a (by simp)
          omega
        · exact ih a b (by simp [hb3])

/-- Python `max` tie-breaking: every candidate strictly before the returned
one has a strictly smaller key. -/
theorem argmaxFirst_first (f : Str → Nat) :
    ∀ (l : List Str) (a : Str),
      ∃ pre suf, a :: l = pre ++ argmaxFirst f a l :: suf ∧
        ∀ b ∈ pre, f b < f (argmaxFirst f a l) := by
  intro l
  induction l with
  | nil => intro a; exact ⟨[], [], by simp [argmaxFirst], by simp⟩
  | cons c rest ih =>
    intro a
    simp only [argmaxFirst]
    by_cases h : f a < f c
    · rw [if_pos h]
      obtain ⟨pre, suf, hdec, hpre⟩ := ih c
      refine ⟨a :: pre, suf, by simp [hdec], ?_⟩
      intro b hb
      rcases List.mem_cons.mp hb with rfl | hb2
      · have := argmaxFirst_ge f rest c c (by simp)
        omega
      · exact hpre b hb2
    · rw [if_neg h]
      obtain ⟨pre, suf, hdec, hpre⟩ := ih a
      cases pre with
      | nil =>
        simp only [List.nil_append, List.cons.injEq] at hdec
        refine ⟨[], c :: rest, ?_, by simp⟩
        simp [← hdec.1]
      | cons p ps =>
        simp only [List.cons_append, List.cons.injEq] at hdec
        obtain ⟨hpa, hrest⟩ := hdec
        refine ⟨a :: c :: ps, suf, ?_, ?_⟩
        · simp only [List.cons_append]
          conv_lhs => rw [hrest]
        · intro b hb
          have hamem : a ∈ p :: ps := by rw [← hpa]; simp
          have hfa : f a < f (argmaxFirst f a rest) := hpre a hamem
          rcases List.mem_cons.mp hb with rfl | hb2
          · exact hfa
          · rcases List.mem_cons.mp hb2 with rfl | hb3
            · omega
            · exact hpre b (by simp [hb3])

/-- The fraction-keyed running maximum is among the candidates. -/
theorem argmaxFracFirst_mem (f : Str → Nat × Nat) :
    ∀ (l : List Str) (a : Str), argmaxFracFirst f a l ∈ a :: l := by
  intro l
  induction l with
  | nil => intro a; simp [argmaxFracFirst]
  | cons c rest ih =>
    intro a
    simp only [argmaxFracFirst]
    by_cases h : fracLt (f a) (f c) = true
    · rw [if_pos h]
      rcases List.mem_cons.mp (ih c) with h2 | h2
      · rw [h2]; simp
      · simp [h2]
    · rw [if_neg h]
      rcases List.mem_cons.mp (ih a) with h2 | h2
      · rw [h2]; simp
      · simp [h2]

/-- The general-topic fallback always returns one of the candidate
categories. -/
theorem classify_by_general_topic_mem (text : Str) (c0 : Str) (cs : List Str) :
    classify_by_general_topic text (c0 :: cs) ∈ c0 :: cs := by
  simp only [classify_by_general_topic]
  by_cases ht : (techTerms.any fun w => containsSub (lower text) w) = true
  · rw [if_pos ht]
    cases hf : (c0 :: cs).find? (fun k => containsSub (lower k) strTech) with
    | some c =>
      exact List.mem_of_find?_eq_some hf
    | none =>
      cases hs : generalTopicsTable.filterMap (fun p =>
          if 0 < (p.2.filter (fun w => (wordsOf (lower text)).contains w)).length then
            some (p.1, (p.2.filter (fun w => (wordsOf (lower text)).contains w)).length)
          else none) with
      | nil => simp [hs]
      | cons s0 srest => simp only [hs]; exact argmaxFracFirst_mem _ cs c0
  · rw [if_neg ht]
    cases hs : generalTopicsTable.filterMap (fun p =>
        if 0 < (p.2.filter (fun w => (wordsOf (lower text)).contains w)).length then
          some (p.1, (p.2.filter (fun w => (wordsOf (lower text)).contains w)).length)
        else none) with
    | nil => simp [hs]
    | cons s0 srest => simp only [hs]; exact argmaxFracFirst_mem _ cs c0

/-- Outside the tech-indicator special case, the fallback classifier runs its
scoring phase. -/
theorem classify_with_fallback_scorePhase (text : Str) (c0 : Str) (cs : List Str)
    (hg : ¬((techIndicators.any fun w => containsSub (lower text) w) = true ∧
      ((c0 :: cs).find? (fun k => containsSub (lower k) strTech)).isSome = true)) :
    classify_with_fallback text (c0 :: cs) =
      if (c0 :: cs).all (fun k => fallbackScore (wordsOf (lower text)) k == 0) then
        classify_by_general_topic (lower text) (c0 :: cs)
      else argmaxFirst (fallbackScore (wordsOf (lower text))) c0 cs := by
  simp only [classify_with_fallback]
  by_cases ht : (techIndicators.any fun w => containsSub (lower text) w) = true
  · rw [if_pos ht]
    cases hf : (c0 :: cs).find? (fun k => containsSub (lower k) strTech) with
    | some c => exact absurd ⟨ht, by rw [hf]; rfl⟩ hg
    | none => rfl
  · rw [if_neg ht]

/-- Text and categories on which the tech special case overrides the
keyword scoring. -/
def exC9text : Str := str "phone eat eat eat"

/-- Candidate categories for the C9 counterexample. -/
def exC9cats : List Str := [str "food", str "technology"]

/-- C9 counterexample: the scores are not all zero and "food" has the
strictly highest combined score, yet the classifier returns "technology"
because the tech-indicator special case bypasses scoring. -/
theorem C9_counterexample :
    (exC9cats.all fun k => fallbackScore (wordsOf (lower exC9text)) k == 0) = false ∧
    fallbackScore (wordsOf (lower exC9text)) (str "technology") <
      fallbackScore (wordsOf (lower exC9text)) (str "food") ∧
    argmaxFirst (fallbackScore (wordsOf (lower exC9text))) (str "food")
        [str "technology"] = str "food" ∧
    classify_with_fallback exC9text exC9cats = str "technology" := by decide

/-- C9 (amended): for non-empty text and more than one candidate category,
WHEN THE TECH-INDICATOR SPECIAL CASE DOES NOT APPLY, the classifier returns a
candidate whose combined keyword score (own-word matches at weight 1, related
words at weight 1/2; scaled by 2 in `fallbackScore`) is maximal, with ties
broken in favour of the earliest candidate; and when every score is zero it
returns the result of the general-topic similarity fallback, which is itself
one of the candidates. -/
theorem C9_amended_theorem :
    ∀ (text : Str) (c0 : Str) (cs : List Str),
      text ≠ [] → cs ≠ [] →
      ¬((techIndicators.any fun w => containsSub (lower text) w) = true ∧
        ((c0 :: cs).find? (fun k => containsSub (lower k) strTech)).isSome = true) →
      (((c0 :: cs).all (fun k => fallbackScore (wordsOf (lower text)) k == 0) = false →
        classify_with_fallback text (c0 :: cs) ∈ c0 :: cs ∧
        (∀ b ∈ c0 :: cs,
          fallbackScore (wordsOf (lower text)) b ≤
            fallbackScore (wordsOf (lower text)) (classify_with_fallback text (c0 :: cs))) ∧
        (∃ pre suf, c0 :: cs = pre ++ classify_with_fallback text (c0 :: cs) :: suf ∧
          ∀ b ∈ pre,
            fallbackScore (wordsOf (lower text)) b <
              fallbackScore (wordsOf (lower text)) (classify_with_fallback text (c0 :: cs)))) ∧
      ((c0 :: cs).all (fun k => fallbackScore (wordsOf (lower text)) k == 0) = true →
        classify_with_fallback text (c0 :: cs) =
          classify_by_general_topic (lower text) (c0 :: cs) ∧
        classify_with_fallback text (c0 :: cs) ∈ c0 :: cs)) := by
  intro text c0 cs _ _ hg
  have hsp := classify_with_fallback_scorePhase text c0 cs hg
  constructor
  · intro hz
    rw [hsp, if_neg (by rw [hz]; exact Bool.false_ne_true)]
    exact ⟨argmaxFirst_mem _ cs c0,
      fun b hb => argmaxFirst_ge _ cs c0 b hb,
      argmaxFirst_first _ cs c0⟩
  · intro hz
    rw [hsp, if_pos hz]
    exact ⟨rfl, classify_by_general_topic_mem (lower text) c0 cs⟩

/-- C9 amended witness: a food text with no tech indicators is scored and the
classifier's result is one of the candidates. -/
theorem C9_amended_witness :
    classify_with_fallback (str "I like cheese and pasta with tomato sauce")
        [str "food", str "learning", str "sports"] ∈
      [str "food", str "learning", str "sports"] :=
  (((C9_amended_theorem (str "I like cheese and pasta with tomato sauce") (str "food")
      [str "learning", str "sports"]) (by decide) (by decide) (by decide)).1 (by decide)).1

example : classify_with_fallback (str "zzz qqq") [str "alpha", str "beta"] = str "alpha" := by
  decide

example : classify_with_fallback (str "xyzzy travel") [str "foo", str "bar"] = str "bar" := by
  decide

example :
    classify_with_fallback (str "I enjoy watching movies on weekends")
      [str "entertainment", str "business", str "health", str "travel"] =
    str "entertainment" := by decide

example :
    classify_with_fallback (str "the professor gave a lecture")
      [str "food", str "learning", str "sports"] = str "learning" := by decide
